import Mathlib

/-!
Verification of the CooperativeProcess post-schedule rule
(paddle/cinn/auto_schedule/post_schedule_rule/cooperative_process.h).

The repository ships only the declaration of the rule
(`class CooperativeProcess : public PostScheduleRule` with
`bool Apply(ir::IRSchedule*)`); the body of `Apply` and the IR Schedule
model live outside the provided sources, so the data model and the
rewrite algorithm below are modelled from the specification document and
checked against it.
-/

namespace CoopRule

/-- Hardware thread-index dimensions, listed in the fixed canonical
allocation order: x before y before z. -/
inductive ThreadDim where
  | x
  | y
  | z
deriving DecidableEq

/-- Modelled from the spec: a `Loop` node of the IR loop nest (the
implementation's `ir` loop type is not under the provided sources).
A loop has an iteration-variable identity, known bounds, a set of
annotation tags, and an optional realized thread binding. -/
structure Loop where
  var : String
  lower : Int
  upper : Int
  annots : List String
  binding : Option ThreadDim
deriving DecidableEq

/-- Modelled from the spec: one block-execution scope, grouping the
loops (listed in the deterministic outer-to-inner traversal order) whose
threads cooperate and share one pool of thread dimensions. -/
structure BlockScope where
  loops : List Loop
deriving DecidableEq

/-- Modelled from the spec: the `ir::IRSchedule` handed to a rule (its
definition is not under the provided sources) — the block scopes of the
candidate program plus the configured list of available thread
dimensions, kept in the canonical order. -/
structure IRSchedule where
  dims : List ThreadDim
  scopes : List BlockScope
deriving DecidableEq

/-- The reportable binding-conflict error carried on the failure
channel, identifying the loop whose cooperative annotation could not be
realized. -/
structure BindingConflict where
  loopVar : String
deriving DecidableEq

/-- The annotation tag the rule rewrites. -/
def coopTag : String := "cooperative_process"

/-- Whether a loop still carries the cooperative-process annotation. -/
def Loop.annotated (l : Loop) : Bool := l.annots.contains coopTag

/-- Attach a thread binding for dimension `d` to loop `l` and remove the
cooperative-process annotation (it is now resolved). -/
def bindLoop (l : Loop) (d : ThreadDim) : Loop :=
  { l with binding := some d, annots := l.annots.filter (fun t => t != coopTag) }

/-- The thread dimensions already claimed by the given sibling loops. -/
def claimedDims (loops : List Loop) : List ThreadDim :=
  loops.filterMap (fun l => l.binding)

/-- The first dimension in the canonical order not already claimed. -/
def firstFreeDim (dims used : List ThreadDim) : Option ThreadDim :=
  dims.find? (fun d => !(used.contains d))

/-- Modelled from the spec: resolve the cooperative-process annotations
of the loops of one block scope, outer-to-inner.  `used` accumulates the
thread dimensions already claimed within the scope.  Returns the
rewritten loops together with whether any annotation was resolved, or a
`BindingConflict` when the dimensions are exhausted. -/
def resolveLoops (dims : List ThreadDim) :
    List ThreadDim → List Loop → Except BindingConflict (List Loop × Bool)
  | _, [] => Except.ok ([], false)
  | used, l :: rest =>
    if l.annotated then
      match firstFreeDim dims used with
      | none => Except.error ⟨l.var⟩
      | some d =>
        match resolveLoops dims (d :: used) rest with
        | Except.ok (rest', _) => Except.ok (bindLoop l d :: rest', true)
        | Except.error e => Except.error e
    else
      match resolveLoops dims used rest with
      | Except.ok (rest', b) => Except.ok (l :: rest', b)
      | Except.error e => Except.error e

/-- Resolve one block scope: the initial claim set is every binding
already present on a sibling loop of the scope. -/
def resolveScope (dims : List ThreadDim) (sc : BlockScope) :
    Except BindingConflict (BlockScope × Bool) :=
  match resolveLoops dims (claimedDims sc.loops) sc.loops with
  | Except.ok (ls, b) => Except.ok (⟨ls⟩, b)
  | Except.error e => Except.error e

/-- Resolve every block scope of the schedule in order, recording
whether any scope resolved an annotation. -/
def applyScopes (dims : List ThreadDim) :
    List BlockScope → Except BindingConflict (List BlockScope × Bool)
  | [] => Except.ok ([], false)
  | sc :: rest =>
    match resolveScope dims sc with
    | Except.error e => Except.error e
    | Except.ok (sc', b) =>
      match applyScopes dims rest with
      | Except.error e => Except.error e
      | Except.ok (rest', b2) => Except.ok (sc' :: rest', b || b2)

/-- The rule object: default-constructed, no data members (mirrors the
header's `class CooperativeProcess` with only a defaulted constructor
and the `Apply` method). -/
structure CooperativeProcess

/-- Modelled from the spec: `CooperativeProcess::Apply`.  The C++ method
mutates the schedule in place and returns `bool`; here it returns the
rewritten schedule paired with the boolean, or the conflict on the error
channel. -/
def CooperativeProcess.Apply (_r : CooperativeProcess) (s : IRSchedule) :
    Except BindingConflict (IRSchedule × Bool) :=
  match applyScopes s.dims s.scopes with
  | Except.ok (scs, b) => Except.ok ({ s with scopes := scs }, b)
  | Except.error e => Except.error e

/-- `Apply` of a (stateless) rule instance, as a function of the
schedule alone. -/
def applyRule (s : IRSchedule) : Except BindingConflict (IRSchedule × Bool) :=
  CooperativeProcess.Apply {} s

/-- The in-place view of one invocation: on success the caller's
schedule is the rewritten one; on failure the invocation is atomic and
the caller still holds the original schedule. -/
def applyInPlace (s : IRSchedule) : Except BindingConflict Bool × IRSchedule :=
  match applyRule s with
  | Except.ok (s', b) => (Except.ok b, s')
  | Except.error e => (Except.error e, s)

/-! ### Helper lemmas -/

theorem resolveLoops_noop (dims used : List ThreadDim) (loops : List Loop)
    (h : ∀ l ∈ loops, l.annotated = false) :
    resolveLoops dims used loops = Except.ok (loops, false) := by
  induction loops with
  | nil => rfl
  | cons l rest ih =>
    have hl : l.annotated = false := h l (List.mem_cons_self l rest)
    have hrest := ih (fun l' hl' => h l' (List.mem_cons_of_mem l hl'))
    simp [resolveLoops, hl, hrest]

theorem resolveScope_noop (dims : List ThreadDim) (sc : BlockScope)
    (h : ∀ l ∈ sc.loops, l.annotated = false) :
    resolveScope dims sc = Except.ok (sc, false) := by
  simp [resolveScope, resolveLoops_noop dims (claimedDims sc.loops) sc.loops h]

theorem applyScopes_noop (dims : List ThreadDim) (scopes : List BlockScope)
    (h : ∀ sc ∈ scopes, ∀ l ∈ sc.loops, l.annotated = false) :
    applyScopes dims scopes = Except.ok (scopes, false) := by
  induction scopes with
  | nil => rfl
  | cons sc rest ih =>
    have hsc := resolveScope_noop dims sc (h sc (List.mem_cons_self sc rest))
    have hrest := ih (fun sc' hsc' => h sc' (List.mem_cons_of_mem sc hsc'))
    simp [applyScopes, hsc, hrest]

theorem applyRule_noop (s : IRSchedule)
    (h : ∀ sc ∈ s.scopes, ∀ l ∈ sc.loops, l.annotated = false) :
    applyRule s = Except.ok (s, false) := by
  simp [applyRule, CooperativeProcess.Apply, applyScopes_noop s.dims s.scopes h]

theorem contains_eq_false_iff {α} [BEq α] [LawfulBEq α] (l : List α) (a : α) :
    l.contains a = false ↔ a ∉ l := by
  rw [Bool.eq_false_iff]
  constructor
  · intro h hm
    exact h (List.elem_iff.mpr hm)
  · intro h hc
    exact h (List.elem_iff.mp hc)

theorem bindLoop_annotated (l : Loop) (d : ThreadDim) :
    (bindLoop l d).annotated = false := by
  rw [Loop.annotated, bindLoop]
  rw [contains_eq_false_iff]
  intro hm
  rcases List.mem_filter.mp hm with ⟨_, hne⟩
  simp at hne

theorem resolveLoops_cons_ok (dims used : List ThreadDim) (l : Loop)
    (rest out : List Loop) (b : Bool)
    (hok : resolveLoops dims used (l :: rest) = Except.ok (out, b)) :
    (l.annotated = false ∧ ∃ rest',
      resolveLoops dims used rest = Except.ok (rest', b) ∧ out = l :: rest') ∨
    (l.annotated = true ∧ ∃ d rest' b', firstFreeDim dims used = some d ∧
      resolveLoops dims (d :: used) rest = Except.ok (rest', b') ∧
      out = bindLoop l d :: rest' ∧ b = true) := by
  rw [resolveLoops] at hok
  split at hok
  next hl =>
    right
    refine ⟨hl, ?_⟩
    split at hok
    next => cases hok
    next d hfd =>
      split at hok
      next rest' b' hrec =>
        cases hok
        exact ⟨d, rest', b', hfd, hrec, rfl, rfl⟩
      next e herr => cases hok
  next hl =>
    left
    refine ⟨Bool.eq_false_iff.mpr hl, ?_⟩
    split at hok
    next rest' b' hrec =>
      cases hok
      exact ⟨rest', hrec, rfl⟩
    next e herr => cases hok

theorem resolveLoops_clears (dims : List ThreadDim) (loops : List Loop) :
    ∀ (used : List ThreadDim) (out : List Loop) (b : Bool),
      resolveLoops dims used loops = Except.ok (out, b) →
      ∀ l ∈ out, l.annotated = false := by
  induction loops with
  | nil =>
    intro used out b hok l hl
    rw [resolveLoops] at hok
    cases hok
    cases hl
  | cons lp rest ih =>
    intro used out b hok l hl
    rcases resolveLoops_cons_ok dims used lp rest out b hok with
      ⟨hfalse, rest', hrec, hout⟩ | ⟨_, d, rest', b', _, hrec, hout, _⟩
    · subst hout
      rcases List.mem_cons.mp hl with h | h
      · subst h
        exact hfalse
      · exact ih used rest' b hrec l h
    · subst hout
      rcases List.mem_cons.mp hl with h | h
      · subst h
        exact bindLoop_annotated lp d
      · exact ih (d :: used) rest' b' hrec l h

theorem resolveLoops_forall2 (dims : List ThreadDim) (loops : List Loop) :
    ∀ (used : List ThreadDim) (out : List Loop) (b : Bool),
      resolveLoops dims used loops = Except.ok (out, b) →
      List.Forall₂ (fun li lo => li.annotated = true →
        lo.binding.isSome = true ∧ lo.annotated = false) loops out := by
  induction loops with
  | nil =>
    intro used out b hok
    rw [resolveLoops] at hok
    cases hok
    exact List.Forall₂.nil
  | cons lp rest ih =>
    intro used out b hok
    rcases resolveLoops_cons_ok dims used lp rest out b hok with
      ⟨hfalse, rest', hrec, hout⟩ | ⟨_, d, rest', b', _, hrec, hout, _⟩
    · subst hout
      refine List.Forall₂.cons ?_ (ih used rest' b hrec)
      intro htrue
      rw [hfalse] at htrue
      cases htrue
    · subst hout
      refine List.Forall₂.cons ?_ (ih (d :: used) rest' b' hrec)
      intro _
      exact ⟨rfl, bindLoop_annotated lp d⟩

theorem resolveScope_ok (dims : List ThreadDim) (sc sc' : BlockScope) (b : Bool)
    (hok : resolveScope dims sc = Except.ok (sc', b)) :
    resolveLoops dims (claimedDims sc.loops) sc.loops = Except.ok (sc'.loops, b) := by
  rw [resolveScope] at hok
  split at hok
  next ls b' hres =>
    cases hok
    exact hres
  next e hres => cases hok

theorem applyScopes_cons_ok (dims : List ThreadDim) (sc : BlockScope)
    (restsc : List BlockScope) (out : List BlockScope) (b : Bool)
    (hok : applyScopes dims (sc :: restsc) = Except.ok (out, b)) :
    ∃ sc' b1 rest' b2, resolveScope dims sc = Except.ok (sc', b1) ∧
      applyScopes dims restsc = Except.ok (rest', b2) ∧
      out = sc' :: rest' ∧ b = (b1 || b2) := by
  rw [applyScopes] at hok
  split at hok
  next e hsc => cases hok
  next sc' b1 hsc =>
    split at hok
    next e hrest => cases hok
    next rest' b2 hrest =>
      cases hok
      exact ⟨sc', b1, rest', b2, hsc, hrest, rfl, rfl⟩

theorem applyRule_ok (s s' : IRSchedule) (b : Bool)
    (hok : applyRule s = Except.ok (s', b)) :
    applyScopes s.dims s.scopes = Except.ok (s'.scopes, b) ∧ s'.dims = s.dims := by
  rw [applyRule, CooperativeProcess.Apply] at hok
  split at hok
  next scs b' hsc =>
    cases hok
    exact ⟨hsc, rfl⟩
  next e hsc => cases hok

theorem applyScopes_clears (dims : List ThreadDim) (scopes : List BlockScope) :
    ∀ (out : List BlockScope) (b : Bool),
      applyScopes dims scopes = Except.ok (out, b) →
      ∀ sc ∈ out, ∀ l ∈ sc.loops, l.annotated = false := by
  induction scopes with
  | nil =>
    intro out b hok sc hsc
    rw [applyScopes] at hok
    cases hok
    cases hsc
  | cons sc0 rest ih =>
    intro out b hok sc hsc
    obtain ⟨sc', b1, rest', b2, hres, hrest, hout, -⟩ :=
      applyScopes_cons_ok dims sc0 rest out b hok
    subst hout
    rcases List.mem_cons.mp hsc with h | h
    · subst h
      exact resolveLoops_clears dims sc0.loops (claimedDims sc0.loops) sc.loops b1
        (resolveScope_ok dims sc0 sc b1 hres)
    · exact ih rest' b2 hrest sc h

theorem applyScopes_forall2 (dims : List ThreadDim) (scopes : List BlockScope) :
    ∀ (out : List BlockScope) (b : Bool),
      applyScopes dims scopes = Except.ok (out, b) →
      List.Forall₂ (fun sc sc' =>
        List.Forall₂ (fun li lo => li.annotated = true →
          lo.binding.isSome = true ∧ lo.annotated = false) sc.loops sc'.loops)
        scopes out := by
  induction scopes with
  | nil =>
    intro out b hok
    rw [applyScopes] at hok
    cases hok
    exact List.Forall₂.nil
  | cons sc0 rest ih =>
    intro out b hok
    obtain ⟨sc', b1, rest', b2, hres, hrest, hout, -⟩ :=
      applyScopes_cons_ok dims sc0 rest out b hok
    subst hout
    exact List.Forall₂.cons
      (resolveLoops_forall2 dims sc0.loops (claimedDims sc0.loops) sc'.loops b1
        (resolveScope_ok dims sc0 sc' b1 hres))
      (ih rest' b2 hrest)

theorem claimedDims_cons_some {l : Loop} {ls : List Loop} {x0 : ThreadDim}
    (h : l.binding = some x0) : claimedDims (l :: ls) = x0 :: claimedDims ls := by
  rw [claimedDims, claimedDims, List.filterMap_cons, h]

theorem claimedDims_cons_none {l : Loop} {ls : List Loop}
    (h : l.binding = none) : claimedDims (l :: ls) = claimedDims ls := by
  rw [claimedDims, claimedDims, List.filterMap_cons, h]

theorem mem_claimedDims_cons {d : ThreadDim} {l : Loop} {ls : List Loop} :
    d ∈ claimedDims (l :: ls) ↔ l.binding = some d ∨ d ∈ claimedDims ls := by
  cases h : l.binding with
  | none =>
    rw [claimedDims_cons_none h]
    simp
  | some x0 =>
    rw [claimedDims_cons_some h]
    simp [List.mem_cons, eq_comm]

theorem claimedDims_nodup_tail {l : Loop} {ls : List Loop}
    (h : (claimedDims (l :: ls)).Nodup) : (claimedDims ls).Nodup := by
  cases hb : l.binding with
  | none =>
    rw [claimedDims_cons_none hb] at h
    exact h
  | some x0 =>
    rw [claimedDims_cons_some hb] at h
    exact h.of_cons

theorem firstFreeDim_not_used (dims used : List ThreadDim) (d : ThreadDim)
    (h : firstFreeDim dims used = some d) : d ∉ used := by
  have hp := List.find?_some h
  simp only [Bool.not_eq_true'] at hp
  exact (contains_eq_false_iff used d).mp hp

theorem firstFreeDim_mem (dims used : List ThreadDim) (d : ThreadDim)
    (h : firstFreeDim dims used = some d) : d ∈ dims :=
  List.mem_of_find?_eq_some h

theorem resolveLoops_claims_sub (dims : List ThreadDim) (loops : List Loop) :
    ∀ (used : List ThreadDim) (out : List Loop) (b : Bool),
      resolveLoops dims used loops = Except.ok (out, b) →
      ∀ d ∈ claimedDims out, d ∈ claimedDims loops ∨ d ∉ used := by
  induction loops with
  | nil =>
    intro used out b hok d hd
    rw [resolveLoops] at hok
    cases hok
    cases hd
  | cons lp rest ih =>
    intro used out b hok d hd
    rcases resolveLoops_cons_ok dims used lp rest out b hok with
      ⟨hfa, rest', hrec, hout⟩ | ⟨hta, d0, rest', b', hfd, hrec, hout, -⟩
    · subst hout
      rcases mem_claimedDims_cons.mp hd with hb | hmem
      · exact Or.inl (mem_claimedDims_cons.mpr (Or.inl hb))
      · rcases ih used rest' b hrec d hmem with h | h
        · exact Or.inl (mem_claimedDims_cons.mpr (Or.inr h))
        · exact Or.inr h
    · subst hout
      rcases mem_claimedDims_cons.mp hd with hb | hmem
      · have hd0 : d = d0 := by
          rw [bindLoop] at hb
          cases hb
          rfl
        subst hd0
        exact Or.inr (firstFreeDim_not_used dims used d hfd)
      · rcases ih (d0 :: used) rest' b' hrec d hmem with h | h
        · exact Or.inl (mem_claimedDims_cons.mpr (Or.inr h))
        · exact Or.inr (fun hm => h (List.mem_cons_of_mem d0 hm))

theorem resolveLoops_nodup (dims : List ThreadDim) (loops : List Loop) :
    ∀ (used : List ThreadDim) (out : List Loop) (b : Bool),
      resolveLoops dims used loops = Except.ok (out, b) →
      (∀ d ∈ claimedDims loops, d ∈ used) →
      (claimedDims loops).Nodup →
      (claimedDims out).Nodup := by
  induction loops with
  | nil =>
    intro used out b hok _ _
    rw [resolveLoops] at hok
    cases hok
    exact List.nodup_nil
  | cons lp rest ih =>
    intro used out b hok hsub hnd
    have hsubt : ∀ d ∈ claimedDims rest, d ∈ used :=
      fun d hd => hsub d (mem_claimedDims_cons.mpr (Or.inr hd))
    have hndt : (claimedDims rest).Nodup := claimedDims_nodup_tail hnd
    rcases resolveLoops_cons_ok dims used lp rest out b hok with
      ⟨hfa, rest', hrec, hout⟩ | ⟨hta, d0, rest', b', hfd, hrec, hout, -⟩
    · subst hout
      cases hb : lp.binding with
      | none =>
        rw [claimedDims_cons_none hb]
        exact ih used rest' b hrec hsubt hndt
      | some x0 =>
        rw [claimedDims_cons_some hb]
        refine List.nodup_cons.mpr ⟨?_, ih used rest' b hrec hsubt hndt⟩
        intro hx
        rcases resolveLoops_claims_sub dims rest used rest' b hrec x0 hx with h | h
        · rw [claimedDims_cons_some hb] at hnd
          exact (List.nodup_cons.mp hnd).1 h
        · exact h (hsub x0 (mem_claimedDims_cons.mpr (Or.inl hb)))
    · subst hout
      have hbd : (bindLoop lp d0).binding = some d0 := rfl
      rw [claimedDims_cons_some hbd]
      have hsubt' : ∀ d ∈ claimedDims rest, d ∈ d0 :: used :=
        fun d hd => List.mem_cons_of_mem d0 (hsubt d hd)
      refine List.nodup_cons.mpr ⟨?_, ih (d0 :: used) rest' b' hrec hsubt' hndt⟩
      intro hx
      rcases resolveLoops_claims_sub dims rest (d0 :: used) rest' b' hrec d0 hx with h | h
      · exact firstFreeDim_not_used dims used d0 hfd (hsubt d0 h)
      · exact h (List.mem_cons_self d0 used)

theorem applyScopes_nodup (dims : List ThreadDim) (scopes : List BlockScope) :
    ∀ (out : List BlockScope) (b : Bool),
      applyScopes dims scopes = Except.ok (out, b) →
      (∀ sc ∈ scopes, (claimedDims sc.loops).Nodup) →
      ∀ sc ∈ out, (claimedDims sc.loops).Nodup := by
  induction scopes with
  | nil =>
    intro out b hok _ sc hsc
    rw [applyScopes] at hok
    cases hok
    cases hsc
  | cons sc0 rest ih =>
    intro out b hok hval sc hsc
    obtain ⟨sc', b1, rest', b2, hres, hrest, hout, -⟩ :=
      applyScopes_cons_ok dims sc0 rest out b hok
    subst hout
    rcases List.mem_cons.mp hsc with h | h
    · subst h
      exact resolveLoops_nodup dims sc0.loops (claimedDims sc0.loops) sc.loops b1
        (resolveScope_ok dims sc0 sc b1 hres) (fun d hd => hd)
        (hval sc0 (List.mem_cons_self sc0 rest))
    · exact ih rest' b2 hrest
        (fun sc1 h1 => hval sc1 (List.mem_cons_of_mem sc0 h1)) sc h

theorem free_shrinks (dims used : List ThreadDim) (d0 : ThreadDim)
    (hmem : d0 ∈ dims) (hnot : d0 ∉ used) :
    (dims.filter (fun d => !((d0 :: used).contains d))).length <
    (dims.filter (fun d => !(used.contains d))).length := by
  have heq : dims.filter (fun d => !((d0 :: used).contains d)) =
      (dims.filter (fun d => !(used.contains d))).filter (fun d => !(d == d0)) := by
    rw [List.filter_filter]
    apply List.filter_congr
    intro a _
    rw [List.contains_cons, Bool.not_or, Bool.and_comm]
  rw [heq]
  apply List.length_filter_lt_length_iff_exists.mpr
  refine ⟨d0, ?_, ?_⟩
  · exact List.mem_filter.mpr
      ⟨hmem, by rw [(contains_eq_false_iff used d0).mpr hnot]; rfl⟩
  · simp

theorem resolveLoops_count_le (dims : List ThreadDim) (loops : List Loop) :
    ∀ (used : List ThreadDim) (out : List Loop) (b : Bool),
      resolveLoops dims used loops = Except.ok (out, b) →
      (loops.filter (fun l => l.annotated)).length ≤
      (dims.filter (fun d => !(used.contains d))).length := by
  induction loops with
  | nil =>
    intro used out b _
    simp
  | cons lp rest ih =>
    intro used out b hok
    rcases resolveLoops_cons_ok dims used lp rest out b hok with
      ⟨hfa, rest', hrec, -⟩ | ⟨hta, d0, rest', b', hfd, hrec, -, -⟩
    · rw [List.filter_cons_of_neg]
      · exact ih used rest' b hrec
      · rw [hfa]
        exact Bool.false_ne_true
    · rw [List.filter_cons_of_pos]
      · have h1 := ih (d0 :: used) rest' b' hrec
        have h2 := free_shrinks dims used d0
          (firstFreeDim_mem dims used d0 hfd)
          (firstFreeDim_not_used dims used d0 hfd)
        rw [List.length_cons]
        omega
      · exact hta

theorem resolveScope_error_of_overflow (dims : List ThreadDim) (sc : BlockScope)
    (hcount : dims.length < (sc.loops.filter (fun l => l.annotated)).length) :
    ∃ e, resolveScope dims sc = Except.error e := by
  cases hres : resolveScope dims sc with
  | error e => exact ⟨e, rfl⟩
  | ok p =>
    exfalso
    obtain ⟨sc', b⟩ := p
    have hle := resolveLoops_count_le dims sc.loops (claimedDims sc.loops)
      sc'.loops b (resolveScope_ok dims sc sc' b hres)
    have hle2 := List.length_filter_le
      (fun d => !((claimedDims sc.loops).contains d)) dims
    omega

theorem applyScopes_error_of_scope_error (dims : List ThreadDim)
    (scopes : List BlockScope)
    (h : ∃ sc ∈ scopes, ∃ e, resolveScope dims sc = Except.error e) :
    ∃ e, applyScopes dims scopes = Except.error e := by
  induction scopes with
  | nil =>
    obtain ⟨sc, hm, -⟩ := h
    cases hm
  | cons sc0 rest ih =>
    obtain ⟨sc, hm, e, herr⟩ := h
    rcases List.mem_cons.mp hm with heq | hmem
    · subst heq
      exact ⟨e, by rw [applyScopes, herr]⟩
    · cases hsc0 : resolveScope dims sc0 with
      | error e0 => exact ⟨e0, by rw [applyScopes, hsc0]⟩
      | ok p =>
        obtain ⟨sc', b1⟩ := p
        obtain ⟨e1, hrest⟩ := ih ⟨sc, hmem, e, herr⟩
        exact ⟨e1, by rw [applyScopes, hsc0, hrest]⟩

theorem applyRule_error_of_scope_error (s : IRSchedule)
    (h : ∃ sc ∈ s.scopes, ∃ e, resolveScope s.dims sc = Except.error e) :
    ∃ e, applyRule s = Except.error e := by
  obtain ⟨e, herr⟩ := applyScopes_error_of_scope_error s.dims s.scopes h
  exact ⟨e, by rw [applyRule, CooperativeProcess.Apply, herr]⟩

theorem find?_split {α} (p : α → Bool) (l : List α) (a : α)
    (h : l.find? p = some a) :
    ∃ pre post, l = pre ++ a :: post ∧ ∀ y ∈ pre, p y = false := by
  induction l with
  | nil => cases h
  | cons hd tl ih =>
    by_cases hp : p hd = true
    · rw [List.find?_cons_of_pos tl hp] at h
      cases h
      refine ⟨[], tl, rfl, ?_⟩
      intro y hy
      cases hy
    · rw [List.find?_cons_of_neg tl hp] at h
      obtain ⟨pre, post, hsp, hpre⟩ := ih h
      refine ⟨hd :: pre, post, by rw [List.cons_append, hsp], ?_⟩
      intro y hy
      rcases List.mem_cons.mp hy with heq | hmem
      · subst heq
        exact Bool.eq_false_iff.mpr hp
      · exact hpre y hmem

theorem firstFreeDim_split (dims used : List ThreadDim) (d : ThreadDim)
    (h : firstFreeDim dims used = some d) :
    ∃ pre post, dims = pre ++ d :: post ∧ ∀ y0 ∈ pre, y0 ∈ used := by
  rw [firstFreeDim] at h
  obtain ⟨pre, post, hsp, hpre⟩ := find?_split _ dims d h
  refine ⟨pre, post, hsp, ?_⟩
  intro y0 hy
  have hfalse := hpre y0 hy
  simp only [Bool.not_eq_false'] at hfalse
  exact List.elem_iff.mp hfalse

/-- Declarative first-fit characterization of one scope's rewrite: every
unannotated loop is kept untouched, and every annotated loop is bound to
a dimension `d` such that `d` is unclaimed and every dimension strictly
before `d` in the canonical order is already claimed. -/
inductive ScopeResolves (dims : List ThreadDim) :
    List ThreadDim → List Loop → List Loop → Prop where
  | nil (used : List ThreadDim) : ScopeResolves dims used [] []
  | keep (used : List ThreadDim) (l : Loop) (rest rest' : List Loop)
      (hl : l.annotated = false)
      (htail : ScopeResolves dims used rest rest') :
      ScopeResolves dims used (l :: rest) (l :: rest')
  | bindFirst (used : List ThreadDim) (l : Loop) (rest rest' : List Loop)
      (d : ThreadDim) (pre post : List ThreadDim)
      (hl : l.annotated = true)
      (hsplit : dims = pre ++ d :: post)
      (hpre : ∀ y0 ∈ pre, y0 ∈ used)
      (hfree : d ∉ used)
      (htail : ScopeResolves dims (d :: used) rest rest') :
      ScopeResolves dims used (l :: rest) (bindLoop l d :: rest')

theorem resolveLoops_first_fit (dims : List ThreadDim) (loops : List Loop) :
    ∀ (used : List ThreadDim) (out : List Loop) (b : Bool),
      resolveLoops dims used loops = Except.ok (out, b) →
      ScopeResolves dims used loops out := by
  induction loops with
  | nil =>
    intro used out b hok
    rw [resolveLoops] at hok
    cases hok
    exact ScopeResolves.nil used
  | cons lp rest ih =>
    intro used out b hok
    rcases resolveLoops_cons_ok dims used lp rest out b hok with
      ⟨hfa, rest', hrec, hout⟩ | ⟨hta, d0, rest', b', hfd, hrec, hout, -⟩
    · subst hout
      exact ScopeResolves.keep used lp rest rest' hfa (ih used rest' b hrec)
    · subst hout
      obtain ⟨pre, post, hsp, hpre⟩ := firstFreeDim_split dims used d0 hfd
      exact ScopeResolves.bindFirst used lp rest rest' d0 pre post hta hsp hpre
        (firstFreeDim_not_used dims used d0 hfd) (ih (d0 :: used) rest' b' hrec)

theorem applyScopes_first_fit (dims : List ThreadDim) (scopes : List BlockScope) :
    ∀ (out : List BlockScope) (b : Bool),
      applyScopes dims scopes = Except.ok (out, b) →
      List.Forall₂ (fun sc sc' =>
        ScopeResolves dims (claimedDims sc.loops) sc.loops sc'.loops)
        scopes out := by
  induction scopes with
  | nil =>
    intro out b hok
    rw [applyScopes] at hok
    cases hok
    exact List.Forall₂.nil
  | cons sc0 rest ih =>
    intro out b hok
    obtain ⟨sc', b1, rest', b2, hres, hrest, hout, -⟩ :=
      applyScopes_cons_ok dims sc0 rest out b hok
    subst hout
    exact List.Forall₂.cons
      (resolveLoops_first_fit dims sc0.loops (claimedDims sc0.loops) sc'.loops b1
        (resolveScope_ok dims sc0 sc' b1 hres))
      (ih rest' b2 hrest)

theorem resolveLoops_exhausted (dims : List ThreadDim) (loops : List Loop) :
    ∀ (used : List ThreadDim), (∀ d ∈ dims, d ∈ used) →
      (∃ l ∈ loops, l.annotated = true) →
      ∃ e, resolveLoops dims used loops = Except.error e := by
  induction loops with
  | nil =>
    intro used _ hex
    obtain ⟨l, hm, -⟩ := hex
    cases hm
  | cons lp rest ih =>
    intro used hall hex
    by_cases hlp : lp.annotated = true
    · have hnone : firstFreeDim dims used = none := by
        rw [firstFreeDim, List.find?_eq_none]
        intro d hd
        simp only [Bool.not_eq_true, Bool.not_eq_false']
        exact List.elem_iff.mpr (hall d hd)
      refine ⟨⟨lp.var⟩, ?_⟩
      rw [resolveLoops, if_pos hlp, hnone]
    · obtain ⟨l, hm, hl⟩ := hex
      rcases List.mem_cons.mp hm with heq | hmem
      · subst heq
        exact absurd hl hlp
      · obtain ⟨e, herr⟩ := ih used hall ⟨l, hmem, hl⟩
        refine ⟨e, ?_⟩
        rw [resolveLoops, if_neg hlp, herr]

/-! ### Concrete schedules used as witnesses -/

/-- An unannotated loop already bound to `x`. -/
def plainLoop : Loop := ⟨"i", 0, 32, ["vectorize"], some ThreadDim.x⟩

/-- A schedule with no cooperative-process annotation anywhere. -/
def noopSched : IRSchedule :=
  ⟨[ThreadDim.x, ThreadDim.y, ThreadDim.z], [⟨[plainLoop]⟩]⟩

/-- Sibling loop A carrying the cooperative-process annotation. -/
def loopA : Loop := ⟨"a", 0, 32, [coopTag], none⟩

/-- Sibling loop B carrying the cooperative-process annotation. -/
def loopB : Loop := ⟨"b", 0, 64, [coopTag], none⟩

/-- One block scope, two annotated sibling loops, dimensions x, y, z. -/
def twoLoopSched : IRSchedule :=
  ⟨[ThreadDim.x, ThreadDim.y, ThreadDim.z], [⟨[loopA, loopB]⟩]⟩

/-- The expected outcome of the end-to-end scenario. -/
def twoLoopResolved : IRSchedule :=
  ⟨[ThreadDim.x, ThreadDim.y, ThreadDim.z],
   [⟨[bindLoop loopA ThreadDim.x, bindLoop loopB ThreadDim.y]⟩]⟩

/-- One dimension available but two cooperative annotations: the
annotations outnumber the dimensions. -/
def overflowSched : IRSchedule := ⟨[ThreadDim.x], [⟨[loopA, loopB]⟩]⟩

/-- An unannotated sibling loop whose pre-existing binding claims `x`. -/
def preboundLoop : Loop := ⟨"p", 0, 16, [], some ThreadDim.x⟩

/-- Every available dimension is already claimed in the scope while an
annotated loop still awaits a binding. -/
def exhaustedSched : IRSchedule := ⟨[ThreadDim.x], [⟨[preboundLoop, loopA]⟩]⟩

/-! ### Claim theorems -/

/-- C1: for every structurally valid schedule containing no loop
annotated cooperative_process, `Apply` returns `false` and the schedule
after the call is identical to the schedule before the call. -/
theorem Apply_no_annotation_noop (s : IRSchedule)
    (h : ∀ sc ∈ s.scopes, ∀ l ∈ sc.loops, l.annotated = false) :
    applyRule s = Except.ok (s, false) :=
  applyRule_noop s h

theorem Apply_no_annotation_noop_witness :
    applyRule noopSched = Except.ok (noopSched, false) :=
  Apply_no_annotation_noop noopSched (by decide)

/-- C5: on the schedule with one block scope containing two annotated
sibling loops and dimensions x, y, z available, `Apply` binds the first
loop to x and the second to y, removes both annotations, and returns
`true`. -/
theorem Apply_two_sibling_scenario :
    applyRule twoLoopSched = Except.ok (twoLoopResolved, true) ∧
    (twoLoopResolved.scopes.map fun sc => sc.loops.map Loop.binding)
      = [[some ThreadDim.x, some ThreadDim.y]] ∧
    (∀ sc ∈ twoLoopResolved.scopes, ∀ l ∈ sc.loops,
      l.annots.contains coopTag = false) :=
  ⟨rfl, by decide, by decide⟩

/-- C2: whenever `Apply` succeeds on a schedule satisfying the binding
invariant, in the resulting schedule no two sibling loops of one block
scope carry bindings to the same thread dimension, and every loop
carries at most one thread binding. -/
theorem Apply_binding_uniqueness (s s' : IRSchedule) (b : Bool)
    (hok : applyRule s = Except.ok (s', b))
    (hval : ∀ sc ∈ s.scopes, (claimedDims sc.loops).Nodup) :
    (∀ sc ∈ s'.scopes, (claimedDims sc.loops).Nodup) ∧
    (∀ sc ∈ s'.scopes, ∀ l ∈ sc.loops, ∀ d1 d2 : ThreadDim,
      l.binding = some d1 → l.binding = some d2 → d1 = d2) := by
  obtain ⟨hsc, -⟩ := applyRule_ok s s' b hok
  refine ⟨applyScopes_nodup s.dims s.scopes s'.scopes b hsc hval, ?_⟩
  intro sc _ l _ d1 d2 h1 h2
  rw [h1] at h2
  cases h2
  rfl

theorem Apply_binding_uniqueness_witness :
    (∀ sc ∈ twoLoopResolved.scopes, (claimedDims sc.loops).Nodup) ∧
    (∀ sc ∈ twoLoopResolved.scopes, ∀ l ∈ sc.loops, ∀ d1 d2 : ThreadDim,
      l.binding = some d1 → l.binding = some d2 → d1 = d2) :=
  Apply_binding_uniqueness twoLoopSched twoLoopResolved true rfl (by decide)

/-- C3: when a block scope carries more cooperative-process annotations
than there are available thread dimensions, `Apply` fails with a
`BindingConflict` error, and the failed invocation is atomic: the
schedule the caller holds afterwards is exactly the input schedule. -/
theorem Apply_conflict_atomic (s : IRSchedule)
    (h : ∃ sc ∈ s.scopes,
      s.dims.length < (sc.loops.filter (fun l => l.annotated)).length) :
    (∃ e, (applyInPlace s).1 = Except.error e) ∧ (applyInPlace s).2 = s := by
  obtain ⟨sc, hm, hcount⟩ := h
  obtain ⟨e, herr⟩ := applyRule_error_of_scope_error s
    ⟨sc, hm, resolveScope_error_of_overflow s.dims sc hcount⟩
  constructor
  · exact ⟨e, by rw [applyInPlace, herr]⟩
  · rw [applyInPlace, herr]

theorem Apply_conflict_atomic_witness :
    (∃ e, (applyInPlace overflowSched).1 = Except.error e) ∧
    (applyInPlace overflowSched).2 = overflowSched :=
  Apply_conflict_atomic overflowSched (by decide)

/-- C4: when `Apply` succeeds, every resolved loop was bound to the
first canonical-order dimension not already claimed by a sibling in its
block scope (every earlier dimension was claimed, the chosen one was
not); when all dimensions of a scope are already claimed while an
annotated loop remains, `Apply` fails with a binding-conflict error
instead of overwriting a binding. -/
theorem Apply_first_fit_selection (s s' : IRSchedule) (b : Bool) :
    (applyRule s = Except.ok (s', b) →
      List.Forall₂ (fun sc sc' =>
        ScopeResolves s.dims (claimedDims sc.loops) sc.loops sc'.loops)
        s.scopes s'.scopes) ∧
    ((∃ sc ∈ s.scopes, (∀ d ∈ s.dims, d ∈ claimedDims sc.loops) ∧
        ∃ l ∈ sc.loops, l.annotated = true) →
      ∃ e, applyRule s = Except.error e) := by
  constructor
  · intro hok
    obtain ⟨hsc, -⟩ := applyRule_ok s s' b hok
    exact applyScopes_first_fit s.dims s.scopes s'.scopes b hsc
  · rintro ⟨sc, hm, hall, hex⟩
    refine applyRule_error_of_scope_error s ⟨sc, hm, ?_⟩
    obtain ⟨e, herr⟩ :=
      resolveLoops_exhausted s.dims sc.loops (claimedDims sc.loops) hall hex
    exact ⟨e, by rw [resolveScope, herr]⟩

theorem Apply_first_fit_selection_witness :
    List.Forall₂ (fun sc sc' =>
      ScopeResolves twoLoopSched.dims (claimedDims sc.loops)
        sc.loops sc'.loops)
      twoLoopSched.scopes twoLoopResolved.scopes ∧
    (∃ e, applyRule exhaustedSched = Except.error e) :=
  ⟨(Apply_first_fit_selection twoLoopSched twoLoopResolved true).1 rfl,
   (Apply_first_fit_selection exhaustedSched exhaustedSched false).2 (by decide)⟩

/-- C6: every loop whose cooperative-process annotation `Apply`
resolves ends up with a thread binding attached and the annotation
removed; after a successful `Apply` no loop of the schedule still
carries the annotation. -/
theorem Apply_resolves_and_clears (s s' : IRSchedule) (b : Bool)
    (hok : applyRule s = Except.ok (s', b)) :
    (∀ sc ∈ s'.scopes, ∀ l ∈ sc.loops, l.annotated = false) ∧
    List.Forall₂ (fun sc sc' =>
      List.Forall₂ (fun li lo => li.annotated = true →
        lo.binding.isSome = true ∧ lo.annotated = false) sc.loops sc'.loops)
      s.scopes s'.scopes := by
  obtain ⟨hsc, -⟩ := applyRule_ok s s' b hok
  exact ⟨applyScopes_clears s.dims s.scopes s'.scopes b hsc,
    applyScopes_forall2 s.dims s.scopes s'.scopes b hsc⟩

theorem Apply_resolves_and_clears_witness :
    (∀ sc ∈ twoLoopResolved.scopes, ∀ l ∈ sc.loops, l.annotated = false) ∧
    List.Forall₂ (fun sc sc' =>
      List.Forall₂ (fun li lo => li.annotated = true →
        lo.binding.isSome = true ∧ lo.annotated = false) sc.loops sc'.loops)
      twoLoopSched.scopes twoLoopResolved.scopes :=
  Apply_resolves_and_clears twoLoopSched twoLoopResolved true rfl

/-- C7: after a first successful `Apply`, a second `Apply` on the
resulting schedule returns `false` and leaves it unchanged. -/
theorem Apply_idempotent (s s1 : IRSchedule) (b : Bool)
    (h : applyRule s = Except.ok (s1, b)) :
    applyRule s1 = Except.ok (s1, false) := by
  obtain ⟨hsc, -⟩ := applyRule_ok s s1 b h
  exact applyRule_noop s1 (applyScopes_clears s.dims s.scopes s1.scopes b hsc)

theorem Apply_idempotent_witness :
    applyRule twoLoopResolved = Except.ok (twoLoopResolved, false) :=
  Apply_idempotent twoLoopSched twoLoopResolved true rfl

/-- C8: `Apply` is deterministic — on equal copies of a schedule two
runs produce equal results (same return value and identical
thread-dimension assignments). -/
theorem Apply_deterministic (s t : IRSchedule) (h : s = t) :
    applyRule s = applyRule t := by
  rw [h]

theorem Apply_deterministic_witness :
    applyRule twoLoopSched = applyRule twoLoopSched :=
  Apply_deterministic twoLoopSched twoLoopSched rfl

/-- C9: the rule object is stateless — it has no data members, any two
instances are equal, and `Apply` depends only on the schedule argument,
so distinct instances (or one reused instance) give equal results on
equal schedules. -/
theorem CooperativeProcess_stateless :
    (∀ r₁ r₂ : CooperativeProcess, r₁ = r₂) ∧
    (∀ (r₁ r₂ : CooperativeProcess) (s : IRSchedule),
      r₁.Apply s = r₂.Apply s) := by
  constructor
  · intro r₁ r₂
    cases r₁
    cases r₂
    rfl
  · intro r₁ r₂ s
    rfl

/-- C10: the applicability result of `Apply` is exactly a boolean — on
the success channel the only possible values are `true` and `false` —
while a binding conflict is signalled on the separate error channel, not
through the returned boolean. -/
theorem Apply_result_channel (s : IRSchedule) :
    (∃ s' b, applyRule s = Except.ok (s', b) ∧ (b = true ∨ b = false)) ∨
    (∃ e, applyRule s = Except.error e) := by
  cases h : applyRule s with
  | ok p =>
    refine Or.inl ⟨p.1, p.2, rfl, ?_⟩
    cases hb : p.2 with
    | true => exact Or.inl rfl
    | false => exact Or.inr rfl
  | error e => exact Or.inr ⟨e, rfl⟩

end CoopRule
